import Mathlib

/-!
Verification development for the chaos-theory repository: a Mandelbrot
escape-time renderer (mandelbrot.py), a double-pendulum RK4 integrator
(double_pendulum.py) and a Lorenz-attractor RK4 integrator (lorenz.py).

The numerical scripts are embedded shallowly: the exact real/complex
arithmetic of the scripts is modelled over the rationals where the source
only uses field operations (Mandelbrot, Lorenz), and over the reals where
the source uses transcendental functions (the pendulum slope).
-/

namespace Mandelbrot

/-- Complex squaring-plus-constant map, one loop body of `f` in
mandelbrot.py: `z = z*z + c`, with a complex number represented as a pair
(real part, imaginary part). -/
def qstep (c z : ℚ × ℚ) : ℚ × ℚ :=
  (z.1 * z.1 - z.2 * z.2 + c.1, 2 * (z.1 * z.2) + c.2)

/-- Squared magnitude of a complex number represented as a pair. The
source tests `np.abs(z) > limit`; since both sides are nonnegative this is
equivalent to `absSq z > limit * limit`, which keeps the embedding inside
the rationals. The bridge to the genuine magnitude is `lt_mag_iff` below. -/
def absSq (z : ℚ × ℚ) : ℚ :=
  z.1 * z.1 + z.2 * z.2

/-- Genuine complex magnitude `np.abs(z)` of a pair, as a real number. -/
noncomputable def mag (z : ℚ × ℚ) : ℝ :=
  Real.sqrt ((absSq z : ℚ) : ℝ)

/-- Orbit of the quadratic map: the value held by the loop variable `z` of
`f` in mandelbrot.py after `n` executions of `z = z*z + c`, starting from
`z = complex(0,0)`. -/
def orbit (c : ℚ × ℚ) : ℕ → ℚ × ℚ
  | 0 => (0, 0)
  | n + 1 => qstep c (orbit c n)

/-- Loop of `f` in mandelbrot.py. The loop counter `i` starts at 1 and the
remaining number of iterations is `fuel` (the Python loop
`for i in range(1, max_iter)` runs `max_iter - 1` times). Each iteration
first applies `z = z*z + c` and then tests `np.abs(z) > limit`, rendered
as the equivalent `limit * limit < absSq z`; on success the current
counter is returned, and when the loop runs out `-1` is returned. -/
def fAux (c : ℚ × ℚ) (limit : ℚ) : ℚ × ℚ → ℕ → ℕ → ℤ
  | _, _, 0 => -1
  | z, i, fuel + 1 =>
    let z1 := qstep c z
    if limit * limit < absSq z1 then (i : ℤ) else fAux c limit z1 (i + 1) fuel

/-- Escape-time function `f(real, imag, max_iter=200, limit=1e6)` of
mandelbrot.py: iterate `z = z*z + c` from `z = 0` for
`i in range(1, max_iter)` and return the first `i` whose iterate exceeds
the bound in magnitude, else `-1`. -/
def f (real imag : ℚ) (max_iter : ℕ := 200) (limit : ℚ := 1000000) : ℤ :=
  fAux (real, imag) limit (0, 0) 1 (max_iter - 1)

/-- Grid of `calc_heights(a, b, c, d, N)` in mandelbrot.py, row `j` holding
cell `[j, i]` for `i < N`: the heights array starts as zeros, and cell
`[j, i]` is set to `f(x, y)` at the sample point
`x = a + i*(b-a)/N`, `y = c + j*(d-c)/N` exactly when that value is
positive. The Python loops run over `i` outer and `j` inner, but each
cell is written independently of the others, so the grid is the function
of `(j, i)` embedded here. -/
def calc_heights (a b c d : ℚ) (N : ℕ) : List (List ℤ) :=
  (List.range N).map (fun (j : ℕ) =>
    (List.range N).map (fun (i : ℕ) =>
      let x := a + (i : ℚ) * (b - a) / (N : ℚ)
      let y := c + (j : ℚ) * (d - c) / (N : ℚ)
      let iterations := f x y
      if 0 < iterations then iterations else 0))

/-- Cell `[j, i]` of a grid, with out-of-range reads defaulting. -/
def cellAt (g : List (List ℤ)) (j i : ℕ) : ℤ :=
  (g.getD j []).getD i 0

end Mandelbrot

namespace Pendulum

/-- State of one double pendulum in double_pendulum.py: a numpy array of
four reals `[theta1, theta2, p1, p2]`. -/
abbrev PState := Fin 4 → ℝ

/-- Mass of P1. -/
def m1 : ℝ := 0.1

/-- Mass of P2. -/
def m2 : ℝ := 0.1

/-- Length of P1. -/
def l1 : ℝ := 0.3

/-- Length of P2. -/
def l2 : ℝ := 0.3

/-- Gravitational acceleration. -/
def g : ℝ := 9.8

/-- Time step. -/
def h : ℝ := 0.001

/-- The function `slope(y)` of double_pendulum.py, the Hamiltonian
vector field of the double pendulum. The Python code reassigns the local
names `p1` and `p2` for the last two components; here those final values
are called `p1d` and `p2d`. -/
noncomputable def slope (y : PState) : PState :=
  let theta1 := y 0
  let theta2 := y 1
  let p1 := y 2
  let p2 := y 3
  let A1 := (p1 * p2 * Real.sin (theta1 - theta2)) /
      (l1 * l2 * (m1 + m2 * Real.sin (theta1 - theta2) ^ 2))
  let A2 := 1 / (2 * l1 ^ 2 * l2 ^ 2 * (m1 + m2 * Real.sin (theta1 - theta2) ^ 2) ^ 2) *
      (p1 ^ 2 * m2 * l2 ^ 2 - 2 * p1 * p2 * m2 * l1 * l2 * Real.cos (theta1 - theta2) +
        p2 ^ 2 * (m1 + m2) * l1 ^ 2) *
      Real.sin (2 * (theta1 - theta2))
  let theta_d1 := (p1 * l2 - p2 * l1 * Real.cos (theta1 - theta2)) /
      (l1 ^ 2 * l2 * (m1 + m2 * Real.sin (theta1 - theta2) ^ 2))
  let theta_d2 := (p2 * (m1 + m2) * l1 - p1 * m2 * l2 * Real.cos (theta1 - theta2)) /
      (m2 * l1 * l2 ^ 2 * (m1 + m2 * Real.sin (theta1 - theta2) ^ 2))
  let p1d := -(m1 + m2) * g * l1 * Real.sin theta1 - A1 + A2
  let p2d := -m2 * g * l2 * Real.sin theta2 + A1 - A2
  ![theta_d1, theta_d2, p1d, p2d]

/-- Body of the loop of `RK4(y, steps)` in double_pendulum.py, one RK4
update of the state, abstracted over the derivative function and the time
step so that the integrator can also be instantiated on other derivative
functions (such as the identically-zero one). -/
noncomputable def RK4step (sl : PState → PState) (dt : ℝ) (y : PState) : PState :=
  let y1 := dt • sl y
  let y2 := dt • sl (y + (0.5 : ℝ) • y1)
  let y3 := dt • sl (y + (0.5 : ℝ) • y2)
  let y4 := dt • sl (y + y3)
  y + (1 / 6 : ℝ) • (y1 + (2 : ℝ) • y2 + (2 : ℝ) • y3 + y4)

/-- Loop of `RK4(y, steps)` in double_pendulum.py: `steps` successive RK4
updates, abstracted over the derivative function and time step. -/
noncomputable def RK4go (sl : PState → PState) (dt : ℝ) : PState → ℕ → PState
  | y, 0 => y
  | y, steps + 1 => RK4go sl dt (RK4step sl dt y) steps

/-- The function `RK4(y, steps)` of double_pendulum.py: it advances the
state by `steps` RK4 updates using the module-level `slope` and `h`. -/
noncomputable def RK4 (y : PState) (steps : ℕ) : PState :=
  RK4go slope h y steps

end Pendulum

namespace Lorenz

/-- A 3-vector of rationals, one column `y[:, i]` of the Lorenz
trajectory array in lorenz.py. -/
abbrev V3 := ℚ × ℚ × ℚ

/-- Lorenz parameter sigma. -/
def sigma : ℚ := 10

/-- Lorenz parameter beta. -/
def beta : ℚ := 8 / 3

/-- Lorenz parameter rho. -/
def rho : ℚ := 28

/-- Time step of lorenz.py. -/
def h : ℚ := 0.01

/-- Final time of lorenz.py. -/
def tf : ℚ := 80

/-- Number of time steps, `N = int(tf/h)` of lorenz.py (`int` truncates;
`tf/h` is positive, so this is the floor). -/
def N : ℕ := (⌊tf / h⌋).toNat

/-- The function `f(t, u)` of lorenz.py, the Lorenz vector field; the
time argument is unused, as in the source. -/
def f (t : ℚ) (u : V3) : V3 :=
  (sigma * (u.2.1 - u.1),
   u.1 * (rho - u.2.2) - u.2.1,
   u.1 * u.2.1 - beta * u.2.2)

/-- One iteration of the integration loop of lorenz.py: the RK4 update
producing `y[:, i]` from `u = y[:, i-1]` at time `t = t[i-1]`
(`k1/2` is written `(1/2) • k1`, elementwise division by 2 as in numpy). -/
def step (t : ℚ) (u : V3) : V3 :=
  let k1 := h • f t u
  let k2 := h • f (t + h / 2) (u + (1 / 2 : ℚ) • k1)
  let k3 := h • f (t + h / 2) (u + (1 / 2 : ℚ) • k2)
  let k4 := h • f (t + h) (u + k3)
  u + (1 / 6 : ℚ) • (k1 + (2 : ℚ) • k2 + (2 : ℚ) • k3 + k4)

/-- State after `n` integration steps: `orbit 0` is the initial condition
`y[:, 0] = [1, 1, 1]`, and step `n+1` is taken at time `t[n] = n*h`. -/
def orbit : ℕ → V3
  | 0 => (1, 1, 1)
  | n + 1 => step ((n : ℚ) * h) (orbit n)

/-- The trajectory array before the loop: `y = np.zeros((3, N))` followed
by `y[:, 0] = [1, 1, 1]`, modelled as the list of its `N` columns. -/
def init : List V3 := (List.replicate N ((0 : ℚ), (0 : ℚ), (0 : ℚ))).set 0 (1, 1, 1)

/-- The loop `for i in range(1, N)` of lorenz.py: at index `i` it writes
`y[:, i]`, computed by the RK4 update from the previously written column
`y[:, i-1]` at time `t[i-1] = (i-1)*h`; `fuel` is the number of remaining
loop iterations. -/
def fill : List V3 → ℕ → ℕ → List V3
  | a, _, 0 => a
  | a, i, fuel + 1 =>
    fill (a.set i (step (((i - 1 : ℕ) : ℚ) * h) (a.getD (i - 1) (0, 0, 0)))) (i + 1) fuel

/-- The trajectory array `y` of lorenz.py after the integration loop. -/
def y : List V3 := fill init 1 (N - 1)

end Lorenz

/-- Indexing with default into the image of an initial segment of the
naturals picks out the function value. -/
lemma getD_map_range {α : Type} (g : ℕ → α) (d : α) (n j : ℕ) (hj : j < n) :
    ((List.range n).map g).getD j d = g j := by
  rw [List.getD_eq_getElem _ _ (by simpa using hj), List.getElem_map, List.getElem_range]

namespace Mandelbrot

/-- Unfolding of one loop iteration of `f`. -/
lemma fAux_succ (c : ℚ × ℚ) (L : ℚ) (z : ℚ × ℚ) (i fuel : ℕ) :
    fAux c L z i (fuel + 1) =
      if L * L < absSq (qstep c z) then (i : ℤ) else fAux c L (qstep c z) (i + 1) fuel := rfl

/-- The magnitude test of the source, `np.abs(z) > limit`, is equivalent
to the squared test used in the embedding, for a nonnegative bound. -/
lemma lt_mag_iff (L : ℚ) (hL : 0 ≤ L) (z : ℚ × ℚ) :
    (L : ℝ) < mag z ↔ L * L < absSq z := by
  have h0 : (0 : ℝ) ≤ (L : ℝ) := by exact_mod_cast hL
  rw [mag, Real.lt_sqrt h0, sq]
  exact_mod_cast Iff.rfl

/-- Applying the quadratic map to the iterate before index `i` gives the
iterate at index `i`. -/
lemma qstep_orbit_pred (c : ℚ × ℚ) (i : ℕ) (hi : 1 ≤ i) :
    qstep c (orbit c (i - 1)) = orbit c i := by
  obtain ⟨k, rfl⟩ : ∃ k, i = k + 1 := ⟨i - 1, by omega⟩
  simp [orbit]

/-- The loop of `f` returns `-1` or a counter value between its starting
counter and the last counter value it reaches. -/
lemma fAux_mem_range (c : ℚ × ℚ) (L : ℚ) :
    ∀ (fuel : ℕ) (z : ℚ × ℚ) (i : ℕ),
      fAux c L z i fuel = -1 ∨
        ∃ j : ℕ, i ≤ j ∧ j < i + fuel ∧ fAux c L z i fuel = (j : ℤ) := by
  intro fuel
  induction fuel with
  | zero => exact fun z i => Or.inl rfl
  | succ n ih =>
    intro z i
    rw [fAux_succ]
    by_cases hesc : L * L < absSq (qstep c z)
    · exact Or.inr ⟨i, le_refl i, by omega, by rw [if_pos hesc]⟩
    · rw [if_neg hesc]
      rcases ih (qstep c z) (i + 1) with h | ⟨j, h1, h2, h3⟩
      · exact Or.inl h
      · exact Or.inr ⟨j, by omega, by omega, h3⟩

/-- Complete characterisation of the loop of `f` in terms of the orbit of
the quadratic map: started at counter `i` (with the iterate of index
`i - 1` in hand) and `fuel` remaining iterations, it either returns `-1`
and no iterate with index in `[i, i + fuel)` beats the bound, or it
returns the first index in `[i, i + fuel)` whose iterate beats the
bound. -/
lemma fAux_orbit_spec (c : ℚ × ℚ) (L : ℚ) :
    ∀ (fuel i : ℕ), 1 ≤ i →
      (fAux c L (orbit c (i - 1)) i fuel = -1 ∧
        ∀ j, i ≤ j → j < i + fuel → ¬ L * L < absSq (orbit c j)) ∨
      (∃ j, i ≤ j ∧ j < i + fuel ∧ fAux c L (orbit c (i - 1)) i fuel = (j : ℤ) ∧
        L * L < absSq (orbit c j) ∧
        ∀ k, i ≤ k → k < j → ¬ L * L < absSq (orbit c k)) := by
  intro fuel
  induction fuel with
  | zero =>
    intro i hi
    exact Or.inl ⟨rfl, fun j h1 h2 => absurd (by omega : j < j) (lt_irrefl j)⟩
  | succ n ih =>
    intro i hi
    rw [fAux_succ, qstep_orbit_pred c i hi]
    by_cases hesc : L * L < absSq (orbit c i)
    · right
      exact ⟨i, le_refl i, by omega, by rw [if_pos hesc], hesc,
        fun k h1 h2 => absurd (by omega : k < k) (lt_irrefl k)⟩
    · rw [if_neg hesc]
      have h' := ih (i + 1) (by omega)
      rw [show i + 1 - 1 = i from by omega] at h'
      rcases h' with ⟨h1, h2⟩ | ⟨j, hj1, hj2, hj3, hj4, hj5⟩
      · left
        refine ⟨h1, fun j hj hjlt => ?_⟩
        rcases eq_or_lt_of_le hj with rfl | hlt
        · exact hesc
        · exact h2 j (by omega) (by omega)
      · right
        refine ⟨j, by omega, by omega, hj3, hj4, fun k hk1 hk2 => ?_⟩
        rcases eq_or_lt_of_le hk1 with rfl | hlt
        · exact hesc
        · exact hj5 k (by omega) hk2

/-- At the origin the loop variable stays at the origin, so the loop of
`f` never returns a counter value. -/
lemma fAux_origin (L : ℚ) : ∀ (fuel i : ℕ), fAux (0, 0) L (0, 0) i fuel = -1 := by
  intro fuel
  induction fuel with
  | zero => exact fun i => rfl
  | succ n ih =>
    intro i
    rw [fAux_succ, show qstep (0, 0) (0, 0) = ((0 : ℚ), (0 : ℚ)) from by
      norm_num [qstep]]
    rw [if_neg (by norm_num [absSq, mul_self_nonneg])]
    exact ih (i + 1)

/-- In-range cells of the heights grid are given by the pointwise formula
of the source loops. -/
lemma cellAt_calc_heights (a b c d : ℚ) (N j i : ℕ) (hj : j < N) (hi : i < N) :
    cellAt (calc_heights a b c d N) j i =
      if 0 < f (a + i * (b - a) / N) (c + j * (d - c) / N)
        then f (a + i * (b - a) / N) (c + j * (d - c) / N) else 0 := by
  rw [cellAt, calc_heights, getD_map_range _ _ _ _ hj, getD_map_range _ _ _ _ hi]

end Mandelbrot

/-- C1: for every complex coordinate (real, imag), `f` with default
parameters (max_iter = 200, limit = 1e6) iterates the quadratic map from
z = 0 through the loop's iteration indices and returns the first index at
which the magnitude of the iterate exceeds the bound, or the sentinel -1
if the bound is never exceeded within those iterations. -/
theorem mandel_f_first_escape (re im : ℚ) :
    (Mandelbrot.f re im = -1 ∧
      ∀ i : ℕ, 1 ≤ i → i < 200 →
        ¬ (1000000 : ℝ) < Mandelbrot.mag (Mandelbrot.orbit (re, im) i)) ∨
    (∃ i : ℕ, 1 ≤ i ∧ i < 200 ∧ Mandelbrot.f re im = (i : ℤ) ∧
      (1000000 : ℝ) < Mandelbrot.mag (Mandelbrot.orbit (re, im) i) ∧
      ∀ j : ℕ, 1 ≤ j → j < i →
        ¬ (1000000 : ℝ) < Mandelbrot.mag (Mandelbrot.orbit (re, im) j)) := by
  have hmag : ∀ w : ℚ × ℚ,
      ((1000000 : ℝ) < Mandelbrot.mag w) ↔
        (1000000 : ℚ) * 1000000 < Mandelbrot.absSq w := by
    intro w
    have h := Mandelbrot.lt_mag_iff 1000000 (by norm_num) w
    rwa [show ((1000000 : ℚ) : ℝ) = (1000000 : ℝ) from by norm_num] at h
  have hf : Mandelbrot.f re im =
      Mandelbrot.fAux (re, im) 1000000 (Mandelbrot.orbit (re, im) (1 - 1)) 1 199 := rfl
  rcases Mandelbrot.fAux_orbit_spec (re, im) 1000000 199 1 (le_refl 1) with
    ⟨h1, h2⟩ | ⟨j, hj1, hj2, hj3, hj4, hj5⟩
  · left
    refine ⟨by rw [hf]; exact h1, fun i hi1 hi2 => ?_⟩
    rw [hmag]
    exact h2 i hi1 (by omega)
  · right
    exact ⟨j, hj1, by omega, by rw [hf]; exact hj3, (hmag _).mpr hj4,
      fun k hk1 hk2 => by rw [hmag]; exact hj5 k hk1 hk2⟩

/-- Witness for C1 at the concrete coordinate (10, 0). -/
theorem mandel_f_first_escape_witness :
    (Mandelbrot.f 10 0 = -1 ∧
      ∀ i : ℕ, 1 ≤ i → i < 200 →
        ¬ (1000000 : ℝ) < Mandelbrot.mag (Mandelbrot.orbit (10, 0) i)) ∨
    (∃ i : ℕ, 1 ≤ i ∧ i < 200 ∧ Mandelbrot.f 10 0 = (i : ℤ) ∧
      (1000000 : ℝ) < Mandelbrot.mag (Mandelbrot.orbit (10, 0) i) ∧
      ∀ j : ℕ, 1 ≤ j → j < i →
        ¬ (1000000 : ℝ) < Mandelbrot.mag (Mandelbrot.orbit (10, 0) j)) :=
  mandel_f_first_escape 10 0

/-- C5: the escape-time evaluation at the origin returns the sentinel -1;
the origin is a fixed point of the quadratic map, so the magnitude never
exceeds the bound within the iteration count. -/
theorem mandel_f_origin_sentinel : Mandelbrot.f 0 0 = -1 :=
  Mandelbrot.fAux_origin 1000000 199 1

/-- C6: at the coordinate (10, 0), far outside the bounded region, `f`
with default parameters escapes after very few iterations: it returns the
positive index 4, which is at most 10. -/
theorem mandel_f_far_point_escapes :
    Mandelbrot.f 10 0 = 4 ∧ 0 < Mandelbrot.f 10 0 ∧ Mandelbrot.f 10 0 ≤ 10 := by
  have e1 : Mandelbrot.qstep (10, 0) (0, 0) = ((10 : ℚ), (0 : ℚ)) := by
    norm_num [Mandelbrot.qstep]
  have e2 : Mandelbrot.qstep (10, 0) (10, 0) = ((110 : ℚ), (0 : ℚ)) := by
    norm_num [Mandelbrot.qstep]
  have e3 : Mandelbrot.qstep (10, 0) (110, 0) = ((12110 : ℚ), (0 : ℚ)) := by
    norm_num [Mandelbrot.qstep]
  have e4 : Mandelbrot.qstep (10, 0) (12110, 0) = ((146652110 : ℚ), (0 : ℚ)) := by
    norm_num [Mandelbrot.qstep]
  have h4 : Mandelbrot.f 10 0 = 4 := by
    have h0 : Mandelbrot.f 10 0 =
        Mandelbrot.fAux (10, 0) 1000000 (0, 0) 1 (198 + 1) := rfl
    rw [h0, Mandelbrot.fAux_succ, e1, if_neg (by norm_num [Mandelbrot.absSq]),
      show (198 : ℕ) = 197 + 1 from rfl, Mandelbrot.fAux_succ, e2,
      if_neg (by norm_num [Mandelbrot.absSq]),
      show (197 : ℕ) = 196 + 1 from rfl, Mandelbrot.fAux_succ, e3,
      if_neg (by norm_num [Mandelbrot.absSq]),
      show (196 : ℕ) = 195 + 1 from rfl, Mandelbrot.fAux_succ, e4,
      if_pos (by norm_num [Mandelbrot.absSq])]
    norm_num
  exact ⟨h4, by rw [h4]; norm_num, by rw [h4]; norm_num⟩

/-- C9: for every input and every max_iter at least 1 (and any bound),
`f` returns either the sentinel -1 or an index between 1 and
max_iter - 1; in particular it never returns 0 and never max_iter, since
only max_iter - 1 loop iterations test the bound. -/
theorem mandel_f_result_range (re im L : ℚ) (m : ℕ) (hm : 1 ≤ m) :
    Mandelbrot.f re im m L = -1 ∨
      (1 ≤ Mandelbrot.f re im m L ∧ Mandelbrot.f re im m L ≤ (m : ℤ) - 1) := by
  have hf : Mandelbrot.f re im m L =
      Mandelbrot.fAux (re, im) L (0, 0) 1 (m - 1) := rfl
  rcases Mandelbrot.fAux_mem_range (re, im) L (m - 1) (0, 0) 1 with h | ⟨j, h1, h2, h3⟩
  · exact Or.inl (by rw [hf]; exact h)
  · right
    rw [hf, h3]
    constructor
    · exact_mod_cast h1
    · omega

/-- Witness for C9 at the coordinate (10, 0) with max_iter = 200. -/
theorem mandel_f_result_range_witness :
    1 ≤ 200 ∧
      (Mandelbrot.f 10 0 200 1000000 = -1 ∨
        (1 ≤ Mandelbrot.f 10 0 200 1000000 ∧
          Mandelbrot.f 10 0 200 1000000 ≤ (200 : ℤ) - 1)) :=
  ⟨by norm_num, mandel_f_result_range 10 0 1000000 200 (by norm_num)⟩

/-- C3: for all plotting limits and positive resolution, every cell of the
heights grid holds either a positive iteration count, namely the value of
`f` at the sampled point (the point diverged), or the sentinel 0, in which
case `f` at the sampled point returned -1 (the point did not diverge
within the bound). -/
theorem calc_heights_cell_invariant (a b c d : ℚ) (N j i : ℕ)
    (hN : 0 < N) (hj : j < N) (hi : i < N) :
    (0 < Mandelbrot.cellAt (Mandelbrot.calc_heights a b c d N) j i ∧
      Mandelbrot.cellAt (Mandelbrot.calc_heights a b c d N) j i =
        Mandelbrot.f (a + (i : ℚ) * (b - a) / (N : ℚ)) (c + (j : ℚ) * (d - c) / (N : ℚ))) ∨
    (Mandelbrot.cellAt (Mandelbrot.calc_heights a b c d N) j i = 0 ∧
      Mandelbrot.f (a + (i : ℚ) * (b - a) / (N : ℚ)) (c + (j : ℚ) * (d - c) / (N : ℚ)) = -1) := by
  have hcell := Mandelbrot.cellAt_calc_heights a b c d N j i hj hi
  by_cases hpos :
      0 < Mandelbrot.f (a + (i : ℚ) * (b - a) / (N : ℚ)) (c + (j : ℚ) * (d - c) / (N : ℚ))
  · left
    rw [hcell, if_pos hpos]
    exact ⟨hpos, rfl⟩
  · right
    rw [hcell, if_neg hpos]
    refine ⟨rfl, ?_⟩
    rcases Mandelbrot.fAux_mem_range
        (a + (i : ℚ) * (b - a) / (N : ℚ), c + (j : ℚ) * (d - c) / (N : ℚ))
        1000000 (200 - 1) (0, 0) 1 with h | ⟨j', h1, h2, h3⟩
    · exact h
    · exact absurd (h3 ▸ (by exact_mod_cast h1 : (1 : ℤ) ≤ (j' : ℤ))) (by
        intro hcon
        exact hpos (lt_of_lt_of_le (by norm_num) hcon))
  
/-- Witness for C3 on the grid with limits (-2, 1, -1, 1) and resolution 2
at cell [1, 1]. -/
theorem calc_heights_cell_invariant_witness :
    ((0 : ℕ) < 2 ∧ (1 : ℕ) < 2 ∧ (1 : ℕ) < 2) ∧
    ((0 < Mandelbrot.cellAt (Mandelbrot.calc_heights (-2) 1 (-1) 1 2) 1 1 ∧
      Mandelbrot.cellAt (Mandelbrot.calc_heights (-2) 1 (-1) 1 2) 1 1 =
        Mandelbrot.f ((-2) + ((1 : ℕ) : ℚ) * (1 - (-2)) / ((2 : ℕ) : ℚ))
          ((-1) + ((1 : ℕ) : ℚ) * (1 - (-1)) / ((2 : ℕ) : ℚ))) ∨
    (Mandelbrot.cellAt (Mandelbrot.calc_heights (-2) 1 (-1) 1 2) 1 1 = 0 ∧
      Mandelbrot.f ((-2) + ((1 : ℕ) : ℚ) * (1 - (-2)) / ((2 : ℕ) : ℚ))
        ((-1) + ((1 : ℕ) : ℚ) * (1 - (-1)) / ((2 : ℕ) : ℚ)) = -1)) :=
  ⟨⟨by norm_num, by norm_num, by norm_num⟩,
    calc_heights_cell_invariant (-2) 1 (-1) 1 2 1 1 (by norm_num) (by norm_num) (by norm_num)⟩

/-- C7: for every positive requested resolution N, the grid computed by
calc_heights has exactly N rows and every row has exactly N cells. -/
theorem calc_heights_dimensions (a b c d : ℚ) (N : ℕ) (hN : 0 < N) :
    (Mandelbrot.calc_heights a b c d N).length = N ∧
      ∀ row ∈ Mandelbrot.calc_heights a b c d N, row.length = N := by
  constructor
  · simp [Mandelbrot.calc_heights]
  · intro row hrow
    rw [Mandelbrot.calc_heights, List.mem_map] at hrow
    obtain ⟨j, hj, rfl⟩ := hrow
    simp

/-- Witness for C7 at resolution 2. -/
theorem calc_heights_dimensions_witness :
    (0 : ℕ) < 2 ∧
      ((Mandelbrot.calc_heights 0 1 0 1 2).length = 2 ∧
        ∀ row ∈ Mandelbrot.calc_heights 0 1 0 1 2, row.length = 2) :=
  ⟨by norm_num, calc_heights_dimensions 0 1 0 1 2 (by norm_num)⟩

/-- C10: cell [j, i] of the grid is determined by `f` at the sample point
(a + i*(b-a)/N, c + j*(d-c)/N): it equals the result of `f` when that
result is positive and 0 otherwise; and the sampled coordinates exclude
the right endpoint b and the top endpoint d. -/
theorem calc_heights_cell_formula (a b c d : ℚ) (N j i : ℕ) (hj : j < N) (hi : i < N) :
    (Mandelbrot.cellAt (Mandelbrot.calc_heights a b c d N) j i =
      if 0 < Mandelbrot.f (a + (i : ℚ) * (b - a) / (N : ℚ)) (c + (j : ℚ) * (d - c) / (N : ℚ))
        then Mandelbrot.f (a + (i : ℚ) * (b - a) / (N : ℚ)) (c + (j : ℚ) * (d - c) / (N : ℚ))
        else 0) ∧
    (a < b → a + (i : ℚ) * (b - a) / (N : ℚ) < b) ∧
    (c < d → c + (j : ℚ) * (d - c) / (N : ℚ) < d) := by
  have hN : (0 : ℚ) < (N : ℚ) := by exact_mod_cast Nat.pos_of_ne_zero (by omega)
  refine ⟨Mandelbrot.cellAt_calc_heights a b c d N j i hj hi, ?_, ?_⟩
  · intro hab
    have hiN : (i : ℚ) < (N : ℚ) := by exact_mod_cast hi
    have hmul : (i : ℚ) * (b - a) < (N : ℚ) * (b - a) :=
      mul_lt_mul_of_pos_right hiN (by linarith)
    have hdiv : (i : ℚ) * (b - a) / (N : ℚ) < b - a := by
      rw [div_lt_iff hN]
      linarith
    linarith
  · intro hcd
    have hjN : (j : ℚ) < (N : ℚ) := by exact_mod_cast hj
    have hmul : (j : ℚ) * (d - c) < (N : ℚ) * (d - c) :=
      mul_lt_mul_of_pos_right hjN (by linarith)
    have hdiv : (j : ℚ) * (d - c) / (N : ℚ) < d - c := by
      rw [div_lt_iff hN]
      linarith
    linarith

/-- Witness for C10 on the grid with limits (-2, 1, -1, 1) and resolution
2 at cell [0, 0]. -/
theorem calc_heights_cell_formula_witness :
    ((0 : ℕ) < 2 ∧ (0 : ℕ) < 2) ∧
    ((Mandelbrot.cellAt (Mandelbrot.calc_heights (-2) 1 (-1) 1 2) 0 0 =
      if 0 < Mandelbrot.f ((-2) + ((0 : ℕ) : ℚ) * (1 - (-2)) / ((2 : ℕ) : ℚ))
          ((-1) + ((0 : ℕ) : ℚ) * (1 - (-1)) / ((2 : ℕ) : ℚ))
        then Mandelbrot.f ((-2) + ((0 : ℕ) : ℚ) * (1 - (-2)) / ((2 : ℕ) : ℚ))
          ((-1) + ((0 : ℕ) : ℚ) * (1 - (-1)) / ((2 : ℕ) : ℚ))
        else 0) ∧
    ((-2 : ℚ) < 1 → (-2) + ((0 : ℕ) : ℚ) * (1 - (-2)) / ((2 : ℕ) : ℚ) < 1) ∧
    ((-1 : ℚ) < 1 → (-1) + ((0 : ℕ) : ℚ) * (1 - (-1)) / ((2 : ℕ) : ℚ) < 1)) :=
  ⟨⟨by norm_num, by norm_num⟩,
    calc_heights_cell_formula (-2) 1 (-1) 1 2 0 0 (by norm_num) (by norm_num)⟩

/-- C2: a single integration step of `RK4` computes the four classical
RK4 stages k1 = h*slope(y), k2 = h*slope(y + k1/2), k3 = h*slope(y + k2/2),
k4 = h*slope(y + k3) and combines them into y + (1/6)*(k1 + 2*k2 + 2*k3 + k4);
the result is a pure function of the input state and the fixed step h. -/
theorem rk4_single_step_classical (y : Pendulum.PState) :
    Pendulum.RK4 y 1 =
      (let k1 := Pendulum.h • Pendulum.slope y
       let k2 := Pendulum.h • Pendulum.slope (y + (1 / 2 : ℝ) • k1)
       let k3 := Pendulum.h • Pendulum.slope (y + (1 / 2 : ℝ) • k2)
       let k4 := Pendulum.h • Pendulum.slope (y + k3)
       y + (1 / 6 : ℝ) • (k1 + (2 : ℝ) • k2 + (2 : ℝ) • k3 + k4)) := by
  have hhalf : ∀ v : Pendulum.PState, (0.5 : ℝ) • v = (1 / 2 : ℝ) • v := by
    intro v
    norm_num
  show Pendulum.RK4go Pendulum.slope Pendulum.h y 1 = _
  rw [Pendulum.RK4go, Pendulum.RK4go, Pendulum.RK4step]
  rw [hhalf, hhalf]

/-- C4: the RK4 integrator applied with an identically-zero derivative
function returns the state unchanged after any number of steps, for any
time increment. -/
theorem rk4_zero_slope_identity (dt : ℝ) (y : Pendulum.PState) (n : ℕ) :
    Pendulum.RK4go (fun _ => (0 : Pendulum.PState)) dt y n = y := by
  induction n generalizing y with
  | zero => rfl
  | succ k ih =>
    have hstep : Pendulum.RK4step (fun _ => (0 : Pendulum.PState)) dt y = y := by
      rw [Pendulum.RK4step]
      simp
    rw [Pendulum.RK4go, hstep]
    exact ih y

namespace Lorenz

/-- The value written by loop iteration `i` from the previous column is
the orbit value at index `i`. -/
lemma step_orbit (i : ℕ) (hi : 1 ≤ i) :
    step (((i - 1 : ℕ) : ℚ) * h) (orbit (i - 1)) = orbit i := by
  obtain ⟨k, rfl⟩ : ∃ k, i = k + 1 := ⟨i - 1, by omega⟩
  simp [orbit]

/-- Invariant of the integration loop: if the columns before `i` already
hold the orbit values and the rest are still the zero placeholder, running
the remaining `fuel = N - i` iterations fills the whole array with the
orbit values. -/
lemma fill_invariant :
    ∀ (fuel i : ℕ), 1 ≤ i → i + fuel = N →
      fill ((List.range i).map orbit ++
          List.replicate (N - i) ((0 : ℚ), (0 : ℚ), (0 : ℚ))) i fuel =
        (List.range N).map orbit := by
  intro fuel
  induction fuel with
  | zero =>
    intro i hi1 hiN
    have hN : i = N := by omega
    subst hN
    simp [fill]
  | succ k ih =>
    intro i hi1 hiN
    rw [fill]
    have hlen : ((List.range i).map orbit).length = i := by simp
    have hget : ((List.range i).map orbit ++
        List.replicate (N - i) ((0 : ℚ), (0 : ℚ), (0 : ℚ))).getD (i - 1) (0, 0, 0) =
        orbit (i - 1) := by
      rw [List.getD_append _ _ _ _ (by omega), getD_map_range _ _ _ _ (by omega)]
    rw [hget, step_orbit i hi1]
    have hset : ((List.range i).map orbit ++
        List.replicate (N - i) ((0 : ℚ), (0 : ℚ), (0 : ℚ))).set i (orbit i) =
        (List.range (i + 1)).map orbit ++
          List.replicate (N - (i + 1)) ((0 : ℚ), (0 : ℚ), (0 : ℚ)) := by
      rw [List.set_append, if_neg (by omega)]
      rw [show N - i = (N - (i + 1)) + 1 from by omega, List.replicate_succ]
      rw [show i - ((List.range i).map orbit).length = 0 from by omega,
        List.set_cons_zero]
      rw [List.range_succ, List.map_append, List.append_assoc]
      rfl
    rw [hset]
    exact ih (i + 1) (by omega) (by omega)

end Lorenz

/-- C8: the Lorenz trajectory array is an ordered sequence with exactly
one 3-vector per discrete time step, each entry determined by its index
(entry `i` is the orbit value after `i` RK4 steps); after the loop its
length equals the precomputed step count N = int(tf/h) = 8000. -/
theorem lorenz_trajectory_spec :
    Lorenz.y.length = Lorenz.N ∧
      Lorenz.N = (⌊Lorenz.tf / Lorenz.h⌋).toNat ∧
      Lorenz.N = 8000 ∧
      Lorenz.y = (List.range Lorenz.N).map Lorenz.orbit := by
  have hN : Lorenz.N = 8000 := by
    rw [Lorenz.N, show Lorenz.tf / Lorenz.h = (8000 : ℚ) from by
      norm_num [Lorenz.tf, Lorenz.h]]
    norm_num
    rfl
  have hinit : Lorenz.init =
      (List.range 1).map Lorenz.orbit ++
        List.replicate (Lorenz.N - 1) ((0 : ℚ), (0 : ℚ), (0 : ℚ)) := by
    rw [Lorenz.init]
    rw [show Lorenz.N = (Lorenz.N - 1) + 1 from by omega, List.replicate_succ,
      List.set_cons_zero]
    simp [List.range_succ, Lorenz.orbit]
  have hy : Lorenz.y = (List.range Lorenz.N).map Lorenz.orbit := by
    rw [Lorenz.y, hinit]
    exact Lorenz.fill_invariant (Lorenz.N - 1) 1 (le_refl 1) (by omega)
  exact ⟨by rw [hy]; simp, rfl, hN, hy⟩
